import Mathlib

/-!
Verification of the job-scheduling and agent-composition core of the
one-prompt-agents runtime, shallowly embedded from the Python sources
(`src/one_prompt_agents/chat_patterns.py`, `mcp_agent.py`,
`agents_loader.py`, `strategies.py`, `main.py`).

Machine-level conventions of the embedding:
* Python dicts keyed by strings become association lists with
  first-match lookup and replace-in-place insertion.
* Python `str` becomes `String`; truthiness of a string is `s ≠ ""`,
  truthiness of a list is `l ≠ []`.
* Fallible Python code (attribute errors, key errors) returns
  `Except String _` or `Option _`.
* `asyncio.Queue` is a FIFO list; `put` appends at the end.
-/

namespace OnePromptAgents

/-- One entry of a job's `chat_history`.  The declared Python type is
`List[Dict[str, str]]`, whose well-typed entries are role/content
dictionaries (`msg`).  Python's `list += str` extends a list with the
*characters* of the string, so a history produced by such a statement can
also hold bare characters (`chr`). -/
inductive HistEntry where
  | msg (role : String) (content : String)
  | chr (c : Char)
deriving DecidableEq, Repr

/-- The `chat_patterns.Job` dataclass (lines 142-151).  The `agent` field is an
object reference in Python; only its identity matters here, so it is kept as
the agent's name. -/
structure Job where
  job_id : String
  agent : String
  text : String
  strategy_name : String
  depends_on : List String := []
  status : String := "in_draft"
  chat_history : List HistEntry := []
  summary : Option String := some ""
deriving DecidableEq, Repr

/-- The global `JOBS: Dict[str, Job]` store, as an association list in
insertion order. -/
abbrev Store := List (String × Job)

/-- Python `dict.get`: first (unique) binding of the key, if any. -/
def storeGet : Store → String → Option Job
  | [], _ => none
  | (k', v') :: rest, k => if k' = k then some v' else storeGet rest k

/-- Python `JOBS[k] = v`: replace the binding in place if the key exists,
otherwise append a new binding. -/
def storeInsert : Store → String → Job → Store
  | [], k, v => [(k, v)]
  | (k', v') :: rest, k, v =>
      if k' = k then (k, v) :: rest else (k', v') :: storeInsert rest k v

/-- Python `str(uuid.uuid4())[-6:]` = the last six characters of the uuid
string (`[-6:]` returns the whole string when it is shorter than six
characters, which the truncated subtraction mirrors exactly). -/
def pyLast6 (s : String) : String := ⟨s.data.drop (s.data.length - 6)⟩

/-- Python `depends_on or []`: `None` and the empty list are falsy. -/
def pyOrList (x : Option (List String)) (dflt : List String) : List String :=
  match x with
  | none => dflt
  | some l => if l.isEmpty then dflt else l

/-- The two store/queue effects `submit_job` performs, in statement order. -/
inductive SubmitEvent where
  | storeInsert (id : String)
  | queuePut (id : String)
deriving DecidableEq, Repr

/-- Result of `submit_job`: updated store and queue, returned id, and the
trace of effects in the order the statements execute. -/
structure SubmitRes where
  store : Store
  queue : List Job
  job_id : String
  events : List SubmitEvent
deriving Repr

/-- Embeds `chat_patterns.submit_job` (lines 163-169).  The fresh uuid drawn by
`uuid.uuid4()` is passed in explicitly. -/
def submit_job (store : Store) (queue : List Job) (uuid : String)
    (agent text strategy_name : String) (depends_on : Option (List String)) :
    SubmitRes :=
  let job_id := pyLast6 uuid
  let job : Job :=
    { job_id := job_id, agent := agent, text := text,
      strategy_name := strategy_name,
      depends_on := pyOrList depends_on [], status := "in_queue" }
  { store := storeInsert store job_id job,
    queue := queue ++ [job],
    job_id := job_id,
    events := [.storeInsert job_id, .queuePut job_id] }

/-- The job value `submit_job` builds for a given uuid and arguments. -/
def submittedJob (uuid agent text strategy_name : String)
    (depends_on : Option (List String)) : Job :=
  { job_id := pyLast6 uuid, agent := agent, text := text,
    strategy_name := strategy_name,
    depends_on := pyOrList depends_on [], status := "in_queue" }

/-- Python `list += str` iterates the string, so a `chat_history` list
extended with a string gains one `chr` entry per character. -/
def strChars (s : String) : List HistEntry := s.data.map HistEntry.chr

/-- Result of `MCPAgent._start_and_wait`: final store and queue, and the
string returned to the calling agent. -/
structure StartWaitRes where
  store : Store
  queue : List Job
  reply : String
deriving Repr

/-- Embeds `mcp_agent.MCPAgent._start_and_wait` (lines 137-170).  `submit_job` and
`get_job` are the Job-Store operations of `chat_patterns.py` (the
`job_manager` module the file imports them from is the same store).  The
Python code mutates the `waiter` object in place; since the store maps the
id to that object and the queue receives the same object, this is rendered
as updating the store binding and enqueueing the updated value. -/
def start_and_wait (store : Store) (queue : List Job) (uuid : String)
    (agentName strategyName : String)
    (agent_inputs your_job_id : String) : StartWaitRes :=
  let r := submit_job store queue uuid agentName agent_inputs strategyName none
  match storeGet r.store your_job_id with
  | none =>
      { store := r.store, queue := r.queue,
        reply := "Job " ++ your_job_id ++
          " not found. You must provide your own job id to wait for another job." }
  | some waiter =>
      let waiter' : Job :=
        { waiter with
          status := "in_queue",
          depends_on := waiter.depends_on ++ [r.job_id],
          chat_history := waiter.chat_history ++
            strChars ("Job " ++ r.job_id ++ " has been started.\n") }
      { store := storeInsert r.store your_job_id waiter',
        queue := r.queue ++ [waiter'],
        reply := "Job " ++ r.job_id ++
          " has been started. To wait for it's completion return your plan." }

/-- The caller job used to exercise `_start_and_wait`. -/
def c1Caller : Job :=
  { job_id := "caller1", agent := "MainAgent", text := "coordinate",
    strategy_name := "default", status := "in_progress",
    chat_history := [HistEntry.msg "user" "hello"] }

/-- A concrete `_start_and_wait` call from `c1Caller`'s job. -/
def c1Run : StartWaitRes :=
  start_and_wait [("caller1", c1Caller)] []
    "123e4567-e89b-12d3-a456-426614174000" "EchoAgent" "default"
    "do-it" "caller1"

/-- One step of a structured `plan` (the canonical shape produced by the
agents' return types: `step_name` plus a `checked` boolean). -/
structure Step where
  step_name : String
  checked : Bool
deriving DecidableEq, Repr

/-- The structured `final_output` of a runner turn, as far as the built-in
strategies and the summary copy inspect it.  `none` in a field models a
return-type schema on which that attribute does not exist. -/
structure FinalOutput where
  plan : Option (List Step) := none
  summary : Option String := none
deriving DecidableEq, Repr

/-- Corrective message for an empty plan (identical literal in
`chat_patterns.py` line 29 and `strategies.py` line 87). -/
def msgPlanEmpty : String :=
  "Plan shouldn't be empty. Revisit the conversation history and generate a new plan according to your goals."

/-- Continue message (identical literal in `chat_patterns.py` line 33 and
`strategies.py` line 91, including the `verifing` typo). -/
def msgContinue : String :=
  "Continue with the first step of the plan that is not checked yet. And after verifing the step goal mark it as checked."

/-- Embeds `chat_patterns.ContinueLastUncheckedStrategy.next_turn` (lines 22-33).
The job is queried fresh from the `JOBS` store.  The `final_output.plan`
attribute access is direct, so a `final_output` without a `plan` field
raises `AttributeError`, rendered as `Except.error`. -/
def nextTurnCLU (store : Store) (final_output : FinalOutput)
    (job_id : String) : Except String (Bool × Option String) :=
  match storeGet store job_id with
  | none => .ok (false, none)
  | some job =>
      if job.status ≠ "in_progress" then .ok (false, none)
      else
        match final_output.plan with
        | none => .error "AttributeError: plan"
        | some plan =>
            if plan.length = 0 then .ok (false, some msgPlanEmpty)
            else if plan.all (fun step => step.checked) then .ok (true, none)
            else .ok (false, some msgContinue)

/-- Embeds `strategies.ContinueLastUncheckedStrategy.next_turn` (lines 67-91).
Identical to the `chat_patterns` version except that the plan is read with
`getattr(final_output, 'plan', [])`, so a missing field becomes the empty
list instead of an exception. -/
def nextTurnCLUSafe (store : Store) (final_output : FinalOutput)
    (job_id : String) : Bool × Option String :=
  match storeGet store job_id with
  | none => (false, none)
  | some job =>
      if job.status ≠ "in_progress" then (false, none)
      else
        let plan := final_output.plan.getD []
        if plan.length = 0 then (false, some msgPlanEmpty)
        else if plan.all (fun step => step.checked) then (true, none)
        else (false, some msgContinue)

/-- Whether the freshly queried job exists and has status `in_progress`
(the guard `not job or job.status != 'in_progress'` shared by both
strategy implementations). -/
def jobInProgress (store : Store) (job_id : String) : Bool :=
  match storeGet store job_id with
  | none => false
  | some job => job.status == "in_progress"

/-- A store holding one `in_progress` job, used to evaluate the strategies
on concrete inputs. -/
def c4Store : Store :=
  [("j1", { job_id := "j1", agent := "EchoAgent", text := "hi",
            strategy_name := "default", status := "in_progress" })]

/-- Python `" ".join(parts)`. -/
def joinSp : List String → String
  | [] => ""
  | [p] => p
  | p :: ps => p ++ " " ++ joinSp ps

/-- The literal resume message of `chat_patterns.autonomous_chat`
(line 198). -/
def resumeMsg : String := "Jobs waited have ended. Resume your task."

/-- The `start_instruction` of both built-in strategies. -/
def startInstructionDefault : String := "Start by making a plan"

/-- The `initial_prompt_parts` built for a new job
(`chat_patterns.autonomous_chat`, lines 188-193): the job-id sentence when
`job.job_id` is truthy, the job's original text, and the strategy's
`start_instruction` when truthy. -/
def initialPromptParts (job : Job) (start_instruction : String) :
    List String :=
  (if job.job_id ≠ "" then ["Your JOB_ID is " ++ job.job_id ++ "."] else [])
    ++ [job.text]
    ++ (if start_instruction ≠ "" then [start_instruction] else [])

/-- The first user message of a new job (line 194). -/
def initialUserMessage (job : Job) (start_instruction : String) : String :=
  joinSp (initialPromptParts job start_instruction)

/-- The input passed to `Runner.run` on the first turn of
`chat_patterns.autonomous_chat` (lines 185-208): for a new job, just the
initial user message; for a resumed job, the saved history followed by the
literal resume message. -/
def firstTurnInput (job : Job) (start_instruction : String) :
    List HistEntry :=
  if job.chat_history.isEmpty then
    [HistEntry.msg "user" (initialUserMessage job start_instruction)]
  else
    job.chat_history ++ [HistEntry.msg "user" resumeMsg]

/-- Python runtime values involved in the membership test
`"summary" in single_agent_run.final_output`. -/
inductive PyVal where
  | str (s : String)
  | boolV (b : Bool)
  | planList (xs : List Step)
  | tup (a b : PyVal)
deriving Repr

/-- Python `==` on these values: equality within a type, `False` across
types (in particular, a `str` never equals a `tuple`). -/
def pyEq : PyVal → PyVal → Bool
  | .str a, .str b => a == b
  | .boolV a, .boolV b => a == b
  | .planList a, .planList b => a == b
  | .tup a b, .tup c d => pyEq a c && pyEq b d
  | _, _ => false

/-- Iterating a Pydantic model (`final_output` has no `__contains__`, so
`in` falls back to `__iter__`) yields one `(field_name, value)` tuple per
field, in declaration order. -/
def foIter (fo : FinalOutput) : List PyVal :=
  (match fo.plan with
   | some p => [PyVal.tup (.str "plan") (.planList p)]
   | none => [])
  ++ (match fo.summary with
      | some s => [PyVal.tup (.str "summary") (.str s)]
      | none => [])

/-- Python `x in ys` via iteration: any element `==` to `x`. -/
def pyContains (x : PyVal) (ys : List PyVal) : Bool :=
  ys.any (fun y => pyEq x y)

/-- The summary-copy step of `chat_patterns.autonomous_chat`
(lines 220-221): `if "summary" in single_agent_run.final_output:
job.summary = single_agent_run.final_output.summary`. -/
def turnSummaryUpdate (job : Job) (fo : FinalOutput) : Except String Job :=
  if pyContains (.str "summary") (foIter fo) then
    match fo.summary with
    | some s => .ok { job with summary := some s }
    | none => .error "AttributeError: summary"
  else .ok job

/-- A resolved tool entry of an agent under construction: either a static
(externally provided) MCP server or a previously loaded agent. -/
inductive ToolRef where
  | staticServer (name : String)
  | agentServer (name : String)
deriving DecidableEq, Repr

/-- One iteration of the tool-resolution loop of
`agents_loader.load_agents` (lines 147-152): a name present in
`static_servers` takes the static server; only otherwise is it looked up
among the already loaded agents (`loaded[t]`, KeyError → `none`). -/
def resolveTool (static_servers loaded : List String) (t : String) :
    Option ToolRef :=
  if t ∈ static_servers then some (.staticServer t)
  else if t ∈ loaded then some (.agentServer t)
  else none

/-- The whole `for t in cfg.tools` loop. -/
def resolveTools (static_servers loaded : List String) :
    List String → Option (List ToolRef)
  | [] => some []
  | t :: ts =>
      match resolveTool static_servers loaded t,
            resolveTools static_servers loaded ts with
      | some r, some rs => some (r :: rs)
      | _, _ => none

/-- Embeds `agents_loader.load_agents` restricted to its tool-wiring effect: walk
`load_order`, resolving each config's tools against the static servers and
the agents loaded so far.  (Schema import and `MCPAgent` construction are
I/O on the side and carry no further state the claims touch.) -/
def load_agents_tools (configs : List (String × List String))
    (statics : List String) :
    List String → List String → Option (List (String × List ToolRef))
  | _, [] => some []
  | loaded, name :: rest =>
      match configs.lookup name with
      | none => none
      | some tools =>
          match resolveTools statics loaded tools with
          | none => none
          | some rs =>
              match load_agents_tools configs statics (loaded ++ [name]) rest with
              | none => none
              | some out => some ((name, rs) :: out)

/-- The process state the HTTP endpoint can touch: the job store and the
job queue. -/
structure AppState where
  jobs : Store
  queue : List Job
deriving Repr

/-- A coroutine object: calling an `async def` function without `await`
builds this value, and its effect runs only if it is later awaited (the
fresh uuid for `submit_job` is drawn at that point). -/
structure Coroutine where
  run : String → AppState → AppState

/-- Python `strategy_name or getattr(mcp_agent, 'strategy_name',
'default')`: `None` and the empty string are falsy. -/
def pyOrStr (x : Option String) (dflt : String) : String :=
  match x with
  | none => dflt
  | some s => if s = "" then dflt else s

/-- Embeds `mcp_agent.start_agent` (lines 186-199) as the coroutine it evaluates
to: awaiting it submits a job for the agent with the given inputs and the
agent's strategy. -/
def start_agent (agentName agentStrategy : String) (inputs : String)
    (strategy_name : Option String) : Coroutine :=
  ⟨fun uuid st =>
    let r := submit_job st.jobs st.queue uuid agentName inputs
        (pyOrStr strategy_name agentStrategy) none
    ⟨r.store, r.queue⟩⟩

/-- HTTP outcome of the `/{agent_name}/run` route. -/
inductive EndpointResult where
  | started (agent : String)
  | httpError (code : Nat) (detail : String)
deriving DecidableEq, Repr

/-- Embeds `main.run_agent_endpoint` (lines 44-52).  An unknown agent raises HTTP
422.  For a known agent the handler evaluates
`start_agent(agents[agent_name], req.prompt)` WITHOUT `await` — this only
constructs a coroutine object, which is never awaited or scheduled — and
returns the started response.  `agents` maps each loaded agent's name to
its strategy name. -/
def run_agent_endpoint (agents : List (String × String)) (st : AppState)
    (agent_name prompt : String) : EndpointResult × AppState :=
  match agents.lookup agent_name with
  | none => (.httpError 422 ("Unknown agent " ++ agent_name), st)
  | some strat =>
      let _unawaited : Coroutine := start_agent agent_name strat prompt none
      (.started agent_name, st)

/-- The two `AgentConfig` fields `topo_sort` reads: `name` and `tools`,
in the insertion order of the configs dict. -/
abbrev Config := String × List String

/-- The keys of the configs dict. -/
def names (configs : List Config) : List String := configs.map Prod.fst

/-- Adjacency lists of the dependency graph built in
`agents_loader.topo_sort` (lines 78-82): for each config `name` and each
`dep` of its tools with `dep in configs`, `graph[dep].append(name)`.
Reading `graph[d]` for a key never appended yields the defaultdict's empty
list. -/
def graphNbrs (configs : List Config) (d : String) : List String :=
  if d ∈ names configs then
    configs.flatMap (fun p => (p.2.filter (fun x => x == d)).map (fun _ => p.1))
  else []

/-- Config `b` directly depends on tool `a` in the graph of `topo_sort`:
some config `(b, tools)` lists `a` among its tools and `a` is itself a
config name. -/
def DependsOn (configs : List Config) (a b : String) : Prop :=
  a ∈ names configs ∧ ∃ tools, (b, tools) ∈ configs ∧ a ∈ tools

/-- The agent-typed tool references contain a cycle. -/
def Cyclic (configs : List Config) : Prop :=
  ∃ a, Relation.TransGen (DependsOn configs) a a

/-- The mutable state of `topo_sort`'s DFS: the black set `visited`, the
gray set `temp`, and the postorder `order`. -/
structure DfsSt where
  visited : List String
  temp : List String
  order : List String
deriving DecidableEq, Repr

/-- Failures of `topo_sort`: the `ValueError` raised on a back edge, plus the
fuel marker used to totalize the recursion (proved unreachable for the
fuel `topo_sort` supplies). -/
inductive TopoErr where
  | cyclic (node : String)
  | fuel
deriving DecidableEq, Repr

mutual
/-- The inner `dfs` of `agents_loader.topo_sort` (lines 84-91).  `fuel`
totalizes the recursion; the nesting depth is bounded by the number of
configs, so the fuel passed by `topo_sort` never runs out (proved below). -/
def dfs (g : String → List String) : Nat → String → DfsSt →
    Except TopoErr DfsSt
  | 0, _, _ => .error .fuel
  | fuel + 1, node, st =>
      if node ∈ st.temp then .error (.cyclic node)
      else if node ∈ st.visited then .ok st
      else
        match dfsList g fuel (g node) { st with temp := node :: st.temp } with
        | .error e => .error e
        | .ok st2 =>
            .ok { visited := node :: st2.visited,
                  temp := st2.temp.erase node,
                  order := st2.order ++ [node] }
termination_by fuel _ _ => (fuel, 0)

/-- The `for nei in graph[node]: dfs(nei)` loop, threading the state and
propagating the first raised error. -/
def dfsList (g : String → List String) : Nat → List String → DfsSt →
    Except TopoErr DfsSt
  | _, [], st => .ok st
  | fuel, n :: rest, st =>
      match dfs g fuel n st with
      | .error e => .error e
      | .ok st2 => dfsList g fuel rest st2
termination_by fuel l _ => (fuel, l.length + 1)
end

/-- Embeds `agents_loader.topo_sort` (lines 63-96): build the graph, run the DFS
from every config name in order, and reverse the accumulated postorder so
that dependencies come first. -/
def topo_sort (configs : List Config) : Except TopoErr (List String) :=
  let g := graphNbrs configs
  match dfsList g ((names configs).length + 1) (names configs)
      ⟨[], [], []⟩ with
  | .error e => .error e
  | .ok st => .ok st.order.reverse

/-- Invariant of the DFS state: `visited` (black) and `temp` (gray) are
duplicate-free and disjoint, `visited` is exactly the reversed postorder,
every out-neighbour of a black node is black, no black node has a self
loop, the postorder never places a node before one of its out-neighbours,
and everything stays inside the config names. -/
structure DfsInv (g : String → List String) (ns : List String)
    (st : DfsSt) : Prop where
  vis_nodup : st.visited.Nodup
  temp_nodup : st.temp.Nodup
  disj : ∀ x ∈ st.temp, x ∉ st.visited
  vis_eq : st.visited = st.order.reverse
  closure : ∀ x ∈ st.visited, ∀ v ∈ g x, v ∈ st.visited
  no_self : ∀ x ∈ st.visited, x ∉ g x
  pairwise : st.order.Pairwise (fun a b => b ∉ g a)
  vis_sub : ∀ x ∈ st.visited, x ∈ ns
  temp_sub : ∀ x ∈ st.temp, x ∈ ns

theorem storeGet_storeInsert_self (s : Store) (k : String) (v : Job) :
    storeGet (storeInsert s k v) k = some v := by
  induction s with
  | nil => simp [storeInsert, storeGet]
  | cons hd tl ih =>
      by_cases h : hd.1 = k
      · simp [storeInsert, storeGet, h]
      · simp [storeInsert, storeGet, h, ih]

theorem storeGet_storeInsert_ne (s : Store) (k k' : String) (v : Job)
    (h : k' ≠ k) : storeGet (storeInsert s k v) k' = storeGet s k' := by
  have hk' : ¬ (k = k') := fun e => h e.symm
  induction s with
  | nil => simp [storeInsert, storeGet, hk']
  | cons hd tl ih =>
      by_cases hk : hd.1 = k
      · rw [storeInsert, if_pos hk, storeGet, storeGet, if_neg hk', if_neg]
        intro e; exact hk' (hk ▸ e)
      · rw [storeInsert, if_neg hk]
        by_cases h2 : hd.1 = k'
        · rw [storeGet, if_pos h2, storeGet, if_pos h2]
        · rw [storeGet, if_neg h2, storeGet, if_neg h2, ih]

/-- C9: `submit_job` creates the job with status `in_queue` and the given
agent, text, strategy and dependency list, stores it under the returned id,
appends it to the queue, and performs the store insertion strictly before
the queue put. -/
theorem submit_job_inserts_then_enqueues
    (store : Store) (queue : List Job) (uuid agent text strategy : String)
    (deps : List String) :
    let r := submit_job store queue uuid agent text strategy (some deps)
    let j := submittedJob uuid agent text strategy (some deps)
    r.job_id = j.job_id
    ∧ j.status = "in_queue"
    ∧ j.agent = agent ∧ j.text = text ∧ j.strategy_name = strategy
    ∧ j.depends_on = deps
    ∧ storeGet r.store r.job_id = some j
    ∧ r.queue = queue ++ [j]
    ∧ r.events = [SubmitEvent.storeInsert r.job_id,
                  SubmitEvent.queuePut r.job_id] := by
  refine ⟨rfl, rfl, rfl, rfl, rfl, ?_, ?_, rfl, rfl⟩
  · cases deps <;> simp [submittedJob, pyOrList]
  · exact storeGet_storeInsert_self _ _ _

/-- C10: the job id is the last six characters of the fresh uuid; the store
is updated at that id only (all other ids keep their bindings), and the new
job is bound there unconditionally, silently replacing any existing entry
with the same id. -/
theorem submit_job_frame
    (store : Store) (queue : List Job) (uuid agent text strategy : String)
    (deps : Option (List String)) :
    let r := submit_job store queue uuid agent text strategy deps
    r.job_id = pyLast6 uuid
    ∧ (∀ k, k ≠ r.job_id → storeGet r.store k = storeGet store k)
    ∧ storeGet r.store r.job_id =
        some (submittedJob uuid agent text strategy deps) := by
  refine ⟨rfl, ?_, ?_⟩
  · intro k hk
    exact storeGet_storeInsert_ne _ _ _ _ hk
  · exact storeGet_storeInsert_self _ _ _

/-- Witness for C10 at a concrete input, including an id collision: the
entry previously stored under `"174000"` is silently replaced. -/
theorem submit_job_frame_witness :
    let oldJob : Job :=
      { job_id := "174000", agent := "Old", text := "old", strategy_name := "default" }
    let store : Store := [("174000", oldJob), ("abc123", oldJob)]
    let r := submit_job store [] "123e4567-e89b-12d3-a456-426614174000"
                "EchoAgent" "hi" "default" none
    r.job_id = "174000"
    ∧ storeGet r.store "abc123" = storeGet store "abc123"
    ∧ storeGet r.store "174000" =
        some (submittedJob "123e4567-e89b-12d3-a456-426614174000"
                "EchoAgent" "hi" "default" none)
    ∧ storeGet r.store "174000" ≠ some oldJob := by
  intro oldJob store r
  have h := submit_job_frame store [] "123e4567-e89b-12d3-a456-426614174000"
      "EchoAgent" "hi" "default" none
  refine ⟨by decide, h.2.1 "abc123" (by decide), h.2.2, by decide⟩

/-- C1 (bug witness): after `_start_and_wait` the caller's `depends_on`
gains the child id, its status is `in_queue` and it is re-enqueued, but its
`chat_history` is NOT extended by one synthetic assistant message: the
Python statement `waiter.chat_history += "Job 174000 has been started.\n"`
extends the list with the string's 29 individual characters. -/
theorem start_and_wait_appends_chars :
    ∃ caller', storeGet c1Run.store "caller1" = some caller'
    ∧ caller'.depends_on = ["174000"]
    ∧ caller'.status = "in_queue"
    ∧ (c1Run.queue.map Job.job_id) = ["174000", "caller1"]
    ∧ caller'.chat_history =
        c1Caller.chat_history ++
          strChars "Job 174000 has been started.\n"
    ∧ caller'.chat_history.length = 30
    ∧ caller'.chat_history ≠
        c1Caller.chat_history ++
          [HistEntry.msg "assistant" "Job 174000 has been started."] := by
  refine ⟨_, rfl, ?_, ?_, ?_, ?_, ?_, ?_⟩ <;> decide

/-- C4: on a `final_output` carrying a `plan` field,
`ContinueLastUncheckedStrategy.next_turn` returns `(false, none)` when the
freshly queried job is not `in_progress`; otherwise the empty-plan
corrective message, `(true, none)` when every step is checked, and the
continue message otherwise.  The `chat_patterns.py` and `strategies.py`
implementations agree on all four cases. -/
theorem continueLastUnchecked_cases (store : Store) (job_id : String)
    (fo : FinalOutput) (plan : List Step) (hp : fo.plan = some plan) :
    (jobInProgress store job_id = false →
        nextTurnCLU store fo job_id = .ok (false, none)
        ∧ nextTurnCLUSafe store fo job_id = (false, none))
    ∧ (jobInProgress store job_id = true → plan = [] →
        nextTurnCLU store fo job_id = .ok (false, some msgPlanEmpty)
        ∧ nextTurnCLUSafe store fo job_id = (false, some msgPlanEmpty))
    ∧ (jobInProgress store job_id = true → plan ≠ [] →
        (∀ step ∈ plan, step.checked = true) →
        nextTurnCLU store fo job_id = .ok (true, none)
        ∧ nextTurnCLUSafe store fo job_id = (true, none))
    ∧ (jobInProgress store job_id = true →
        (∃ step ∈ plan, step.checked = false) →
        nextTurnCLU store fo job_id = .ok (false, some msgContinue)
        ∧ nextTurnCLUSafe store fo job_id = (false, some msgContinue)) := by
  unfold jobInProgress nextTurnCLU nextTurnCLUSafe
  cases hget : storeGet store job_id with
  | none => simp
  | some job =>
      by_cases hst : job.status = "in_progress"
      · simp only [hst, hp, beq_self_eq_true, ne_eq, not_true_eq_false,
          if_false, Option.getD_some]
        refine ⟨by simp, ?_, ?_, ?_⟩
        · rintro - rfl; simp
        · intro _ hne hall
          have h0 : ¬ plan.length = 0 := by
            simpa [List.length_eq_zero] using hne
          have hall' : plan.all (fun step => step.checked) = true := by
            simpa [List.all_eq_true] using hall
          simp [h0, hall']
        · rintro - ⟨step, hmem, hunch⟩
          have h0 : ¬ plan.length = 0 := by
            intro h
            rw [List.length_eq_zero] at h
            subst h
            exact absurd hmem (List.not_mem_nil step)
          have hall' : ¬ plan.all (fun step => step.checked) = true := by
            simp only [List.all_eq_true]
            intro hall
            have := hall step hmem
            rw [hunch] at this
            exact Bool.false_ne_true this
          simp [h0, hall']
      · have : (job.status == "in_progress") = false := by
          simpa using hst
        simp [hst, this]

/-- Witness for C4 on concrete inputs: a half-checked plan of an
`in_progress` job yields the continue message in both implementations. -/
theorem continueLastUnchecked_cases_witness :
    nextTurnCLU c4Store
        { plan := some [⟨"s1", true⟩, ⟨"s2", false⟩] } "j1" =
      .ok (false, some msgContinue)
    ∧ nextTurnCLUSafe c4Store
        { plan := some [⟨"s1", true⟩, ⟨"s2", false⟩] } "j1" =
      (false, some msgContinue) := by
  have h := continueLastUnchecked_cases c4Store "j1"
      { plan := some [⟨"s1", true⟩, ⟨"s2", false⟩] }
      [⟨"s1", true⟩, ⟨"s2", false⟩] rfl
  exact h.2.2.2 (by decide) ⟨⟨"s2", false⟩, by decide, rfl⟩

/-- C6 counterexample: in the live module (`chat_patterns.py`), a
`final_output` lacking the `plan` field makes
`ContinueLastUncheckedStrategy.next_turn` raise `AttributeError` on an
`in_progress` job — it is not treated as an empty plan. -/
theorem nextTurnCLU_missing_plan_raises :
    nextTurnCLU c4Store { plan := none } "j1" =
      .error "AttributeError: plan"
    ∧ nextTurnCLU c4Store { plan := none } "j1" ≠
      .ok (false, some msgPlanEmpty) := by
  refine ⟨rfl, fun h => ?_⟩
  rw [show nextTurnCLU c4Store { plan := none } "j1" =
      Except.error "AttributeError: plan" from rfl] at h
  exact Except.noConfusion h

/-- C6 (amended): `strategies.py`'s `ContinueLastUncheckedStrategy`
reads the plan with `getattr(final_output, 'plan', [])`, so a missing
`plan` field is treated as an empty plan and the job continues with the
empty-plan corrective message. -/
theorem nextTurnCLUSafe_missing_plan_empty (store : Store) (job_id : String)
    (fo : FinalOutput) (hp : fo.plan = none)
    (hj : jobInProgress store job_id = true) :
    nextTurnCLUSafe store fo job_id = (false, some msgPlanEmpty) := by
  unfold jobInProgress at hj
  unfold nextTurnCLUSafe
  cases hget : storeGet store job_id with
  | none => rw [hget] at hj; exact absurd hj (by simp)
  | some job =>
      rw [hget] at hj
      have hst : job.status = "in_progress" := by simpa using hj
      simp [hst, hp]

/-- Witness for the amended C6 at a concrete input. -/
theorem nextTurnCLUSafe_missing_plan_empty_witness :
    nextTurnCLUSafe c4Store { plan := none } "j1" =
      (false, some msgPlanEmpty) :=
  nextTurnCLUSafe_missing_plan_empty c4Store "j1" { plan := none } rfl
    (by decide)

theorem infix_append_left_of {α : Type} {l rest : List α} (x : List α)
    (h : l <:+: rest) : l <:+: x ++ rest := by
  obtain ⟨s, t, e⟩ := h
  exact ⟨x ++ s, t, by rw [← e]; simp⟩

theorem mem_infix_joinSp (parts : List String) (p : String)
    (hp : p ∈ parts) : p.data <:+: (joinSp parts).data := by
  induction parts with
  | nil => exact absurd hp (List.not_mem_nil p)
  | cons q qs ih =>
      cases qs with
      | nil =>
          rcases List.mem_singleton.mp hp with rfl
          exact List.infix_refl _
      | cons q' qs' =>
          rw [show joinSp (q :: q' :: qs') = q ++ " " ++ joinSp (q' :: qs')
              from rfl, String.data_append, String.data_append]
          rcases List.mem_cons.mp hp with rfl | hmem
          · exact ⟨[], " ".data ++ (joinSp (q' :: qs')).data, by simp⟩
          · exact infix_append_left_of _ (ih hmem)

/-- C5: on a job with empty `chat_history` the runner input is a single
user message that contains the job id, the job's initial text, and the
strategy's `start_instruction`; on a job with non-empty `chat_history` the
runner input is exactly that history followed by the literal resume
message. -/
theorem autonomous_chat_first_input (job : Job) (si : String) :
    (job.chat_history = [] →
        firstTurnInput job si
          = [HistEntry.msg "user" (initialUserMessage job si)]
        ∧ job.job_id.data <:+: (initialUserMessage job si).data
        ∧ job.text.data <:+: (initialUserMessage job si).data
        ∧ si.data <:+: (initialUserMessage job si).data)
    ∧ (job.chat_history ≠ [] →
        firstTurnInput job si
          = job.chat_history ++ [HistEntry.msg "user" resumeMsg]) := by
  constructor
  · intro hempty
    refine ⟨by simp [firstTurnInput, hempty], ?_, ?_, ?_⟩
    · by_cases hid : job.job_id = ""
      · simp [hid]
      · have hpart : ("Your JOB_ID is " ++ job.job_id ++ ".") ∈
            initialPromptParts job si := by
          simp [initialPromptParts, hid]
        refine List.IsInfix.trans ?_ (mem_infix_joinSp _ _ hpart)
        rw [String.data_append, String.data_append]
        exact ⟨"Your JOB_ID is ".data, ".".data, by simp⟩
    · exact mem_infix_joinSp _ _ (by simp [initialPromptParts])
    · by_cases hsi : si = ""
      · simp [hsi]
      · exact mem_infix_joinSp _ _ (by simp [initialPromptParts, hsi])
  · intro hne
    have : job.chat_history.isEmpty = false := by
      simpa [List.isEmpty_iff] using hne
    simp [firstTurnInput, this]

/-- Witness for C5: a concrete new job and a concrete resumed job. -/
theorem autonomous_chat_first_input_witness :
    let newJob : Job :=
      { job_id := "a1b2c3", agent := "EchoAgent", text := "hi",
        strategy_name := "default", status := "in_progress" }
    let oldJob : Job :=
      { newJob with chat_history := [HistEntry.msg "user" "earlier"] }
    (firstTurnInput newJob startInstructionDefault
        = [HistEntry.msg "user"
            (initialUserMessage newJob startInstructionDefault)]
      ∧ "a1b2c3".data <:+:
          (initialUserMessage newJob startInstructionDefault).data)
    ∧ firstTurnInput oldJob startInstructionDefault
        = [HistEntry.msg "user" "earlier",
           HistEntry.msg "user" resumeMsg] := by
  intro newJob oldJob
  have h1 := autonomous_chat_first_input newJob startInstructionDefault
  have h2 := autonomous_chat_first_input oldJob startInstructionDefault
  refine ⟨⟨(h1.1 rfl).1, (h1.1 rfl).2.1⟩, ?_⟩
  have := h2.2 (by decide)
  simpa using this

/-- C7 (bug witness): the membership test compares the string `"summary"`
against `(field_name, value)` tuples, so it is false for every
`final_output` — `job.summary` is never updated, even when the output
exposes a `summary` field (e.g. value `"done"` here, while the job keeps
`""`). -/
theorem summary_copy_never_fires :
    (∀ job fo, turnSummaryUpdate job fo = Except.ok job)
    ∧ pyContains (.str "summary")
        (foIter { plan := some [⟨"s1", true⟩], summary := some "done" })
        = false
    ∧ (turnSummaryUpdate
          { job_id := "j1", agent := "EchoAgent", text := "hi",
            strategy_name := "default", status := "in_progress" }
          { plan := some [⟨"s1", true⟩], summary := some "done" }).map
        Job.summary = Except.ok (some "") := by
  refine ⟨?_, by decide, rfl⟩
  intro job fo
  have hc : pyContains (.str "summary") (foIter fo) = false := by
    cases hp : fo.plan <;> cases hs : fo.summary <;>
      simp [pyContains, foIter, hp, hs, pyEq]
  simp [turnSummaryUpdate, hc]

/-- C3 counterexample: with `"S"` both a loaded agent config and a static
server, agent `A`'s tool `"S"` resolves to the static server, not to the
loaded agent. -/
theorem load_agents_static_wins_cex :
    load_agents_tools [("S", []), ("A", ["S"])] ["S"] [] ["S", "A"]
      = some [("S", []), ("A", [ToolRef.staticServer "S"])]
    ∧ ToolRef.staticServer "S" ≠ ToolRef.agentServer "S" := by
  constructor <;> decide

/-- C3 (amended): a tool name that matches a static server resolves to the
static server, regardless of whether it also names a loaded agent —
externals win over agents-as-tools of the same name. -/
theorem resolveTool_static_wins (statics loaded : List String) (t : String)
    (h : t ∈ statics) :
    resolveTool statics loaded t = some (ToolRef.staticServer t) := by
  simp [resolveTool, h]

/-- Witness for the amended C3. -/
theorem resolveTool_static_wins_witness :
    resolveTool ["S"] ["S"] "S" = some (ToolRef.staticServer "S") :=
  resolveTool_static_wins ["S"] ["S"] "S" (by decide)

/-- C8 (bug witness): a known agent gets the started response but the
store and queue are UNCHANGED — the un-awaited `start_agent` coroutine
never runs, so no job is submitted; an unknown agent gets 422 and no job
either.  The last conjunct shows what awaiting the coroutine would have
done: append the submitted job to the queue. -/
theorem run_endpoint_submits_nothing :
    (∀ (agents : List (String × String)) st name prompt strat,
        agents.lookup name = some strat →
        run_agent_endpoint agents st name prompt
          = (.started name, st))
    ∧ (∀ (agents : List (String × String)) st name prompt,
        agents.lookup name = none →
        run_agent_endpoint agents st name prompt
          = (.httpError 422 ("Unknown agent " ++ name), st))
    ∧ (∀ st name prompt strat uuid,
        ((start_agent name strat prompt none).run uuid st).queue
          = st.queue ++ [submittedJob uuid name prompt strat none]) := by
  refine ⟨?_, ?_, ?_⟩
  · intro agents st name prompt strat h
    simp [run_agent_endpoint, h]
  · intro agents st name prompt h
    simp [run_agent_endpoint, h]
  · intro st name prompt strat uuid
    rfl

/-- Witness for C8 at a concrete input: one loaded agent `EchoAgent`,
empty store and queue; the known-agent call leaves the state unchanged. -/
theorem run_endpoint_submits_nothing_witness :
    run_agent_endpoint [("EchoAgent", "default")] ⟨[], []⟩ "EchoAgent" "hi"
      = (.started "EchoAgent", ⟨[], []⟩)
    ∧ run_agent_endpoint [("EchoAgent", "default")] ⟨[], []⟩ "Nope" "hi"
      = (.httpError 422 "Unknown agent Nope", ⟨[], []⟩) := by
  have h := run_endpoint_submits_nothing
  exact ⟨h.1 [("EchoAgent", "default")] ⟨[], []⟩ "EchoAgent" "hi" "default"
      (by decide),
    h.2.1 [("EchoAgent", "default")] ⟨[], []⟩ "Nope" "hi" (by decide)⟩

theorem topo_sort_sanity_chain :
    topo_sort [("A", ["B"]), ("B", ["C"]), ("C", [])]
      = .ok ["C", "B", "A"] := by
  simp [topo_sort, dfs, dfsList, graphNbrs, names]

theorem topo_sort_sanity_cycle :
    topo_sort [("A", ["B"]), ("B", ["A"])]
      = .error (TopoErr.cyclic "A") := by
  simp [topo_sort, dfs, dfsList, graphNbrs, names]

/-- Membership in the built adjacency lists coincides with the
`DependsOn` relation read off the configs. -/
theorem mem_graphNbrs (configs : List Config) (a b : String) :
    b ∈ graphNbrs configs a ↔ DependsOn configs a b := by
  unfold graphNbrs DependsOn
  by_cases ha : a ∈ names configs
  · rw [if_pos ha]
    simp only [List.mem_flatMap, List.mem_map, List.mem_filter, ha, true_and]
    constructor
    · rintro ⟨p, hp, ⟨x, ⟨hx, hxa⟩, rfl⟩⟩
      have hxe : x = a := by simpa using hxa
      exact ⟨p.2, by simpa using hp, hxe ▸ hx⟩
    · rintro ⟨tools, hmem, hatools⟩
      exact ⟨(b, tools), hmem, ⟨a, ⟨hatools, by simp⟩, rfl⟩⟩
  · rw [if_neg ha]
    simp [ha]

/-- Every neighbour in the built graph is a config name. -/
theorem graphNbrs_sub (configs : List Config) (a : String) :
    ∀ v ∈ graphNbrs configs a, v ∈ names configs := by
  intro v hv
  rcases (mem_graphNbrs configs a v).mp hv with ⟨-, tools, hmem, -⟩
  exact List.mem_map.mpr ⟨(v, tools), hmem, rfl⟩

section DfsProofs

variable (g : String → List String)

/-- A successful `dfs` call restores the gray set exactly (the node it
pushes is popped on the way out), jointly with `dfsList`. -/
theorem dfs_temp_eq :
    ∀ f : Nat,
      (∀ n st st', dfs g f n st = .ok st' → st'.temp = st.temp)
      ∧ (∀ l st st', dfsList g f l st = .ok st' → st'.temp = st.temp) := by
  have hList : ∀ f : Nat,
      (∀ n st st', dfs g f n st = .ok st' → st'.temp = st.temp) →
      (∀ l st st', dfsList g f l st = .ok st' → st'.temp = st.temp) := by
    intro f hA l
    induction l with
    | nil =>
        intro st st' h
        rw [dfsList] at h
        cases h
        rfl
    | cons n rest ih =>
        intro st st' h
        rw [dfsList] at h
        cases hd : dfs g f n st with
        | error e => rw [hd] at h; cases h
        | ok st2 =>
            rw [hd] at h
            exact (ih st2 st' h).trans (hA n st st2 hd)
  intro f
  induction f with
  | zero =>
      refine ⟨fun n st st' h => ?_, hList 0 (fun n st st' h => ?_)⟩ <;>
        (rw [dfs] at h; cases h)
  | succ f ihf =>
      have hA : ∀ n st st', dfs g (f + 1) n st = .ok st' →
          st'.temp = st.temp := by
        intro n st st' h
        rw [dfs] at h
        by_cases h1 : n ∈ st.temp
        · rw [if_pos h1] at h; cases h
        · rw [if_neg h1] at h
          by_cases h2 : n ∈ st.visited
          · rw [if_pos h2] at h; cases h; rfl
          · rw [if_neg h2] at h
            cases hd : dfsList g f (g n) { st with temp := n :: st.temp } with
            | error e => rw [hd] at h; cases h
            | ok st2 =>
                rw [hd] at h
                cases h
                have ht : st2.temp = n :: st.temp :=
                  (hList f ihf.1) _ _ _ hd
                simp [ht, List.erase_cons_head]
      exact ⟨hA, hList (f + 1) hA⟩

end DfsProofs

section DfsOk

variable {g : String → List String} {ns : List String}

/-- The black set only grows, the gray set is restored, the invariant is
preserved, and a successfully processed node ends up black — jointly for
`dfs` and `dfsList`. -/
theorem dfs_ok_spec (hg : ∀ d, ∀ v ∈ g d, v ∈ ns) :
    ∀ f : Nat,
      (∀ n st st', n ∈ ns → DfsInv g ns st → dfs g f n st = .ok st' →
        DfsInv g ns st' ∧ st'.temp = st.temp
        ∧ (∀ x ∈ st.visited, x ∈ st'.visited) ∧ n ∈ st'.visited)
      ∧ (∀ l st st', (∀ m ∈ l, m ∈ ns) → DfsInv g ns st →
          dfsList g f l st = .ok st' →
        DfsInv g ns st' ∧ st'.temp = st.temp
        ∧ (∀ x ∈ st.visited, x ∈ st'.visited)
        ∧ (∀ m ∈ l, m ∈ st'.visited)) := by
  have hList : ∀ f : Nat,
      (∀ n st st', n ∈ ns → DfsInv g ns st → dfs g f n st = .ok st' →
        DfsInv g ns st' ∧ st'.temp = st.temp
        ∧ (∀ x ∈ st.visited, x ∈ st'.visited) ∧ n ∈ st'.visited) →
      (∀ l st st', (∀ m ∈ l, m ∈ ns) → DfsInv g ns st →
          dfsList g f l st = .ok st' →
        DfsInv g ns st' ∧ st'.temp = st.temp
        ∧ (∀ x ∈ st.visited, x ∈ st'.visited)
        ∧ (∀ m ∈ l, m ∈ st'.visited)) := by
    intro f hA l
    induction l with
    | nil =>
        intro st st' hl hInv h
        rw [dfsList] at h
        cases h
        exact ⟨hInv, rfl, fun x hx => hx, by simp⟩
    | cons n rest ih =>
        intro st st' hl hInv h
        rw [dfsList] at h
        cases hd : dfs g f n st with
        | error e => rw [hd] at h; cases h
        | ok st2 =>
            rw [hd] at h
            obtain ⟨hInv2, ht2, hgrow2, hn2⟩ :=
              hA n st st2 (hl n (by simp)) hInv hd
            obtain ⟨hInv', ht', hgrow', hrest'⟩ :=
              ih st2 st' (fun m hm => hl m (by simp [hm])) hInv2 h
            refine ⟨hInv', ht'.trans ht2, fun x hx => hgrow' x (hgrow2 x hx), ?_⟩
            intro m hm
            rcases List.mem_cons.mp hm with rfl | hm'
            · exact hgrow' m hn2
            · exact hrest' m hm'
  intro f
  induction f with
  | zero =>
      constructor
      · intro n st st' _ _ h
        rw [dfs] at h
        cases h
      · refine hList 0 ?_
        intro n st st' _ _ h
        rw [dfs] at h
        cases h
  | succ f ihf =>
      have hA : ∀ n st st', n ∈ ns → DfsInv g ns st →
          dfs g (f + 1) n st = .ok st' →
          DfsInv g ns st' ∧ st'.temp = st.temp
          ∧ (∀ x ∈ st.visited, x ∈ st'.visited) ∧ n ∈ st'.visited := by
        intro n st st' hn hInv h
        rw [dfs] at h
        by_cases h1 : n ∈ st.temp
        · rw [if_pos h1] at h; cases h
        · rw [if_neg h1] at h
          by_cases h2 : n ∈ st.visited
          · rw [if_pos h2] at h
            cases h
            exact ⟨hInv, rfl, fun x hx => hx, h2⟩
          · rw [if_neg h2] at h
            cases hd : dfsList g f (g n) { st with temp := n :: st.temp } with
            | error e => rw [hd] at h; cases h
            | ok st2 =>
                rw [hd] at h
                cases h
                -- invariant for the pushed state
                have hInv1 : DfsInv g ns { st with temp := n :: st.temp } :=
                  { vis_nodup := hInv.vis_nodup
                    temp_nodup := List.nodup_cons.mpr ⟨h1, hInv.temp_nodup⟩
                    disj := by
                      intro x hx
                      rcases List.mem_cons.mp hx with rfl | hx'
                      · exact h2
                      · exact hInv.disj x hx'
                    vis_eq := hInv.vis_eq
                    closure := hInv.closure
                    no_self := hInv.no_self
                    pairwise := hInv.pairwise
                    vis_sub := hInv.vis_sub
                    temp_sub := by
                      intro x hx
                      rcases List.mem_cons.mp hx with rfl | hx'
                      · exact hn
                      · exact hInv.temp_sub x hx' }
                obtain ⟨hInv2, ht2, hgrow2, hnb⟩ :=
                  (hList f ihf.1) (g n) _ st2 (hg n) hInv1 hd
                have ht2' : st2.temp = n :: st.temp := ht2
                have hn_not_vis2 : n ∉ st2.visited :=
                  hInv2.disj n (by rw [ht2']; exact List.mem_cons_self n _)
                have horder2 : ∀ x, x ∈ st2.order ↔ x ∈ st2.visited := by
                  intro x
                  rw [hInv2.vis_eq, List.mem_reverse]
                have herase : st2.temp.erase n = st.temp := by
                  rw [ht2', List.erase_cons_head]
                have htempn : st.temp.Nodup := hInv.temp_nodup
                refine ⟨?_, ?_, ?_, ?_⟩
                · refine
                    { vis_nodup := ?_
                      temp_nodup := ?_
                      disj := ?_
                      vis_eq := ?_
                      closure := ?_
                      no_self := ?_
                      pairwise := ?_
                      vis_sub := ?_
                      temp_sub := ?_ }
                  · show (n :: st2.visited).Nodup
                    exact List.nodup_cons.mpr ⟨hn_not_vis2, hInv2.vis_nodup⟩
                  · show (st2.temp.erase n).Nodup
                    rw [herase]; exact htempn
                  · show ∀ x ∈ st2.temp.erase n, x ∉ n :: st2.visited
                    intro x hx
                    rw [herase] at hx
                    intro hmem
                    rcases List.mem_cons.mp hmem with rfl | hmem'
                    · exact h1 hx
                    · have hx2 : x ∈ st2.temp := by
                        rw [ht2']
                        exact List.mem_cons_of_mem n hx
                      exact hInv2.disj x hx2 hmem'
                  · show n :: st2.visited = (st2.order ++ [n]).reverse
                    rw [List.reverse_append]
                    simpa using congrArg (n :: ·) hInv2.vis_eq
                  · show ∀ x ∈ n :: st2.visited, ∀ v ∈ g x, v ∈ n :: st2.visited
                    intro x hx v hv
                    rcases List.mem_cons.mp hx with hxe | hx'
                    · subst hxe
                      exact List.mem_cons_of_mem x (hnb v hv)
                    · exact List.mem_cons_of_mem n (hInv2.closure x hx' v hv)
                  · show ∀ x ∈ n :: st2.visited, x ∉ g x
                    intro x hx
                    rcases List.mem_cons.mp hx with hxe | hx'
                    · subst hxe
                      intro hself
                      exact hn_not_vis2 (hnb x hself)
                    · exact hInv2.no_self x hx'
                  · show (st2.order ++ [n]).Pairwise (fun a b => b ∉ g a)
                    refine List.pairwise_append.mpr
                      ⟨hInv2.pairwise, List.pairwise_singleton _ _, ?_⟩
                    intro a ha b hb
                    rcases List.mem_singleton.mp hb with rfl
                    intro hbg
                    exact hn_not_vis2
                      (hInv2.closure a ((horder2 a).mp ha) b hbg)
                  · show ∀ x ∈ n :: st2.visited, x ∈ ns
                    intro x hx
                    rcases List.mem_cons.mp hx with rfl | hx'
                    · exact hn
                    · exact hInv2.vis_sub x hx'
                  · show ∀ x ∈ st2.temp.erase n, x ∈ ns
                    intro x hx
                    rw [herase] at hx
                    exact hInv.temp_sub x hx
                · show st2.temp.erase n = st.temp
                  exact herase
                · intro x hx
                  exact List.mem_cons_of_mem n (hgrow2 x hx)
                · exact List.mem_cons_self n _
      exact ⟨hA, hList (f + 1) hA⟩

end DfsOk

section DfsFuel

variable {g : String → List String} {ns : List String}

/-- With the fuel bound `|ns| + 1 ≤ fuel + |temp|` (and a gray set that is
duplicate-free and inside `ns`), the fuel marker is never reached: the gray
set grows by one at each nesting level and cannot exceed `|ns|`. -/
theorem dfs_no_fuel (hg : ∀ d, ∀ v ∈ g d, v ∈ ns) :
    ∀ f : Nat,
      (∀ n st, n ∈ ns → st.temp.Nodup → (∀ x ∈ st.temp, x ∈ ns) →
        ns.length + 1 ≤ f + st.temp.length →
        dfs g f n st ≠ .error .fuel)
      ∧ (∀ l st, (∀ m ∈ l, m ∈ ns) → st.temp.Nodup →
        (∀ x ∈ st.temp, x ∈ ns) →
        ns.length + 1 ≤ f + st.temp.length →
        dfsList g f l st ≠ .error .fuel) := by
  have hList : ∀ f : Nat,
      (∀ n st, n ∈ ns → st.temp.Nodup → (∀ x ∈ st.temp, x ∈ ns) →
        ns.length + 1 ≤ f + st.temp.length →
        dfs g f n st ≠ .error .fuel) →
      (∀ l st, (∀ m ∈ l, m ∈ ns) → st.temp.Nodup →
        (∀ x ∈ st.temp, x ∈ ns) →
        ns.length + 1 ≤ f + st.temp.length →
        dfsList g f l st ≠ .error .fuel) := by
    intro f hA l
    induction l with
    | nil =>
        intro st _ _ _ _ h
        rw [dfsList] at h
        cases h
    | cons n rest ih =>
        intro st hl hnd hsub hb h
        rw [dfsList] at h
        cases hd : dfs g f n st with
        | error e =>
            rw [hd] at h
            cases h
            exact hA n st (hl n (by simp)) hnd hsub hb hd
        | ok st2 =>
            rw [hd] at h
            have ht : st2.temp = st.temp := ((dfs_temp_eq g) f).1 n st st2 hd
            exact ih st2 (fun m hm => hl m (by simp [hm]))
              (ht ▸ hnd) (fun x hx => hsub x (ht ▸ hx)) (ht ▸ hb) h
  intro f
  induction f with
  | zero =>
      constructor
      · intro n st _ hnd hsub hb
        have hle : st.temp.length ≤ ns.length :=
          (List.subperm_of_subset hnd (fun x hx => hsub x hx)).length_le
        omega
      · refine hList 0 ?_
        intro n st _ hnd hsub hb
        have hle : st.temp.length ≤ ns.length :=
          (List.subperm_of_subset hnd (fun x hx => hsub x hx)).length_le
        omega
  | succ f ihf =>
      have hA : ∀ n st, n ∈ ns → st.temp.Nodup →
          (∀ x ∈ st.temp, x ∈ ns) →
          ns.length + 1 ≤ (f + 1) + st.temp.length →
          dfs g (f + 1) n st ≠ .error .fuel := by
        intro n st hn hnd hsub hb h
        rw [dfs] at h
        by_cases h1 : n ∈ st.temp
        · rw [if_pos h1] at h; cases h
        · rw [if_neg h1] at h
          by_cases h2 : n ∈ st.visited
          · rw [if_pos h2] at h; cases h
          · rw [if_neg h2] at h
            cases hd : dfsList g f (g n) { st with temp := n :: st.temp } with
            | error e =>
                rw [hd] at h
                cases h
                refine hList f ihf.1 (g n) _ (hg n) ?_ ?_ ?_ hd
                · exact List.nodup_cons.mpr ⟨h1, hnd⟩
                · intro x hx
                  rcases List.mem_cons.mp hx with hxe | hx'
                  · exact hxe ▸ hn
                  · exact hsub x hx'
                · show ns.length + 1 ≤ f + (n :: st.temp).length
                  simp only [List.length_cons]
                  omega
            | ok st2 => rw [hd] at h; cases h
      exact ⟨hA, hList (f + 1) hA⟩

end DfsFuel

section DfsCyclic

variable {g : String → List String}

/-- When the DFS raises the cycle error and every gray node reaches the
current node through graph edges, the graph has a cycle. -/
theorem dfs_cyclic_sound :
    ∀ f : Nat,
      (∀ n st c, dfs g f n st = .error (.cyclic c) →
        (∀ t ∈ st.temp, Relation.TransGen (fun a b => b ∈ g a) t n) →
        ∃ z, Relation.TransGen (fun a b => b ∈ g a) z z)
      ∧ (∀ l st c, dfsList g f l st = .error (.cyclic c) →
        (∀ m ∈ l, ∀ t ∈ st.temp,
          Relation.TransGen (fun a b => b ∈ g a) t m) →
        ∃ z, Relation.TransGen (fun a b => b ∈ g a) z z) := by
  have hList : ∀ f : Nat,
      (∀ n st c, dfs g f n st = .error (.cyclic c) →
        (∀ t ∈ st.temp, Relation.TransGen (fun a b => b ∈ g a) t n) →
        ∃ z, Relation.TransGen (fun a b => b ∈ g a) z z) →
      (∀ l st c, dfsList g f l st = .error (.cyclic c) →
        (∀ m ∈ l, ∀ t ∈ st.temp,
          Relation.TransGen (fun a b => b ∈ g a) t m) →
        ∃ z, Relation.TransGen (fun a b => b ∈ g a) z z) := by
    intro f hA l
    induction l with
    | nil =>
        intro st c h _
        rw [dfsList] at h
        cases h
    | cons n rest ih =>
        intro st c h hchain
        rw [dfsList] at h
        cases hd : dfs g f n st with
        | error e =>
            rw [hd] at h
            cases h
            exact hA n st c hd (hchain n (by simp))
        | ok st2 =>
            rw [hd] at h
            have ht : st2.temp = st.temp := ((dfs_temp_eq g) f).1 n st st2 hd
            refine ih st2 c h ?_
            intro m hm t htmem
            exact hchain m (by simp [hm]) t (ht ▸ htmem)
  intro f
  induction f with
  | zero =>
      constructor
      · intro n st c h _
        rw [dfs] at h
        cases h
      · refine hList 0 ?_
        intro n st c h _
        rw [dfs] at h
        cases h
  | succ f ihf =>
      have hA : ∀ n st c, dfs g (f + 1) n st = .error (.cyclic c) →
          (∀ t ∈ st.temp, Relation.TransGen (fun a b => b ∈ g a) t n) →
          ∃ z, Relation.TransGen (fun a b => b ∈ g a) z z := by
        intro n st c h hchain
        rw [dfs] at h
        by_cases h1 : n ∈ st.temp
        · exact ⟨n, hchain n h1⟩
        · rw [if_neg h1] at h
          by_cases h2 : n ∈ st.visited
          · rw [if_pos h2] at h; cases h
          · rw [if_neg h2] at h
            cases hd : dfsList g f (g n) { st with temp := n :: st.temp } with
            | error e =>
                rw [hd] at h
                cases h
                refine hList f ihf.1 (g n) _ c hd ?_
                intro m hm t htmem
                rcases List.mem_cons.mp htmem with hte | ht'
                · exact hte ▸ Relation.TransGen.single hm
                · exact (hchain t ht').tail hm
            | ok st2 => rw [hd] at h; cases h
      exact ⟨hA, hList (f + 1) hA⟩

end DfsCyclic

/-- Chains along the built graph are chains of `DependsOn`. -/
theorem transGen_edge_iff (configs : List Config) (x y : String) :
    Relation.TransGen (fun a b => b ∈ graphNbrs configs a) x y ↔
      Relation.TransGen (DependsOn configs) x y :=
  ⟨Relation.TransGen.mono (fun a b h => (mem_graphNbrs configs a b).mp h),
   Relation.TransGen.mono (fun a b h => (mem_graphNbrs configs a b).mpr h)⟩

/-- The invariant holds of the initial DFS state. -/
theorem dfsInv_init (g : String → List String) (ns : List String) :
    DfsInv g ns ⟨[], [], []⟩ :=
  { vis_nodup := List.nodup_nil
    temp_nodup := List.nodup_nil
    disj := by intro x hx; cases hx
    vis_eq := rfl
    closure := by intro x hx; cases hx
    no_self := by intro x hx; cases hx
    pairwise := List.Pairwise.nil
    vis_sub := by intro x hx; cases hx
    temp_sub := by intro x hx; cases hx }

/-- Everything a successful `topo_sort` run guarantees about its output
list, before phrasing it through `DependsOn`. -/
theorem topo_sort_ok_spec (configs : List Config) (l : List String)
    (h : topo_sort configs = .ok l) :
    l.Nodup
    ∧ (∀ x ∈ l, x ∈ names configs)
    ∧ (∀ m ∈ names configs, m ∈ l)
    ∧ l.Pairwise (fun a b => a ∉ graphNbrs configs b)
    ∧ (∀ x ∈ l, x ∉ graphNbrs configs x) := by
  simp only [topo_sort] at h
  cases hd : dfsList (graphNbrs configs) ((names configs).length + 1)
      (names configs) ⟨[], [], []⟩ with
  | error e => rw [hd] at h; cases h
  | ok stF =>
      rw [hd] at h
      cases h
      obtain ⟨hInv, -, -, hall⟩ :=
        ((dfs_ok_spec (graphNbrs_sub configs)
            ((names configs).length + 1)).2)
          (names configs) ⟨[], [], []⟩ stF (fun m hm => hm)
          (dfsInv_init _ _) hd
      have hvl : stF.visited = stF.order.reverse := hInv.vis_eq
      have hmem : ∀ x, x ∈ stF.order.reverse ↔ x ∈ stF.visited := by
        intro x; rw [hvl]
      refine ⟨hvl ▸ hInv.vis_nodup, ?_, ?_, ?_, ?_⟩
      · intro x hx
        exact hInv.vis_sub x ((hmem x).mp hx)
      · intro m hm
        exact (hmem m).mpr (hall m hm)
      · exact (List.pairwise_reverse).mpr hInv.pairwise
      · intro x hx
        exact hInv.no_self x ((hmem x).mp hx)

/-- A successful `topo_sort` output orders every direct dependency before
its dependent. -/
theorem topo_sort_ok_indexOf (configs : List Config) (l : List String)
    (h : topo_sort configs = .ok l) :
    ∀ a b, b ∈ graphNbrs configs a →
      a ∈ l ∧ b ∈ l ∧ l.indexOf a < l.indexOf b := by
  obtain ⟨hnd, hsub, hfull, hpw, hns⟩ := topo_sort_ok_spec configs l h
  intro a b hab
  have hdep : DependsOn configs a b := (mem_graphNbrs configs a b).mp hab
  have hbn : b ∈ names configs := by
    obtain ⟨-, tools, hmem, -⟩ := hdep
    exact List.mem_map.mpr ⟨(b, tools), hmem, rfl⟩
  have hal : a ∈ l := hfull a hdep.1
  have hbl : b ∈ l := hfull b hbn
  refine ⟨hal, hbl, ?_⟩
  have hia : l.indexOf a < l.length := List.indexOf_lt_length.mpr hal
  have hib : l.indexOf b < l.length := List.indexOf_lt_length.mpr hbl
  have hga : l.get ⟨l.indexOf a, hia⟩ = a := List.indexOf_get hia
  have hgb : l.get ⟨l.indexOf b, hib⟩ = b := List.indexOf_get hib
  have hab' : a ≠ b := by
    intro he
    exact hns a hal (he ▸ hab)
  have hne : l.indexOf a ≠ l.indexOf b := by
    intro he
    apply hab'
    rw [← hga, ← hgb]
    congr 1
    exact Fin.ext he
  rcases Nat.lt_or_ge (l.indexOf a) (l.indexOf b) with hlt | hge
  · exact hlt
  · exfalso
    have hlt' : l.indexOf b < l.indexOf a := by omega
    have := (List.pairwise_iff_get.mp hpw) ⟨l.indexOf b, hib⟩
        ⟨l.indexOf a, hia⟩ hlt'
    rw [hga, hgb] at this
    exact this hab

/-- A successful `topo_sort` run certifies acyclicity. -/
theorem topo_sort_ok_not_cyclic (configs : List Config) (l : List String)
    (h : topo_sort configs = .ok l) : ¬ Cyclic configs := by
  rintro ⟨a, hcyc⟩
  have hcyc' : Relation.TransGen
      (fun x y => y ∈ graphNbrs configs x) a a :=
    (transGen_edge_iff configs a a).mpr hcyc
  have hmono : ∀ x y, Relation.TransGen
      (fun x y => y ∈ graphNbrs configs x) x y →
      l.indexOf x < l.indexOf y := by
    intro x y hxy
    induction hxy with
    | single he => exact (topo_sort_ok_indexOf configs l h _ _ he).2.2
    | tail _ he ih =>
        exact ih.trans (topo_sort_ok_indexOf configs l h _ _ he).2.2
  exact absurd (hmono a a hcyc') (by omega)

/-- The fuel `topo_sort` supplies never runs out. -/
theorem topo_sort_ne_fuel (configs : List Config) :
    topo_sort configs ≠ .error .fuel := by
  intro h
  simp only [topo_sort] at h
  cases hd : dfsList (graphNbrs configs) ((names configs).length + 1)
      (names configs) ⟨[], [], []⟩ with
  | error e =>
      rw [hd] at h
      cases h
      refine (dfs_no_fuel (graphNbrs_sub configs)
          ((names configs).length + 1)).2
        (names configs) ⟨[], [], []⟩ (fun m hm => hm)
        List.nodup_nil (by intro x hx; cases hx) ?_ hd
      simp
  | ok stF => rw [hd] at h; cases h

/-- C2: for configs with distinct names, every successful `topo_sort` run
returns a permutation of the config names in which each agent comes after
all of its agent-typed tools; acyclic inputs always succeed, and cyclic
inputs always raise the cycle error. -/
theorem topo_sort_correct (configs : List Config)
    (H : (names configs).Nodup) :
    (∀ l, topo_sort configs = .ok l →
        l.Perm (names configs)
        ∧ ∀ a b, DependsOn configs a b →
            a ∈ l ∧ b ∈ l ∧ l.indexOf a < l.indexOf b)
    ∧ (¬ Cyclic configs → ∃ l, topo_sort configs = .ok l)
    ∧ (Cyclic configs → ∃ c,
        topo_sort configs = .error (TopoErr.cyclic c)) := by
  refine ⟨?_, ?_, ?_⟩
  · intro l h
    obtain ⟨hnd, hsub, hfull, -, -⟩ := topo_sort_ok_spec configs l h
    constructor
    · exact (List.subperm_of_subset hnd hsub).antisymm
        (List.subperm_of_subset H hfull)
    · intro a b hdep
      exact topo_sort_ok_indexOf configs l h a b
        ((mem_graphNbrs configs a b).mpr hdep)
  · intro hnc
    cases hres : topo_sort configs with
    | ok l => exact ⟨l, rfl⟩
    | error e =>
        cases e with
        | fuel => exact absurd hres (topo_sort_ne_fuel configs)
        | cyclic c =>
            exfalso
            apply hnc
            simp only [topo_sort] at hres
            cases hd : dfsList (graphNbrs configs)
                ((names configs).length + 1) (names configs)
                ⟨[], [], []⟩ with
            | ok stF => rw [hd] at hres; cases hres
            | error e' =>
                rw [hd] at hres
                cases hres
                obtain ⟨z, hz⟩ :=
                  (dfs_cyclic_sound ((names configs).length + 1)).2
                    (names configs) ⟨[], [], []⟩ c hd
                    (by intro m hm t ht; cases ht)
                exact ⟨z, (transGen_edge_iff configs z z).mp hz⟩
  · intro hcyc
    cases hres : topo_sort configs with
    | ok l => exact absurd hcyc (topo_sort_ok_not_cyclic configs l hres)
    | error e =>
        cases e with
        | fuel => exact absurd hres (topo_sort_ne_fuel configs)
        | cyclic c => exact ⟨c, rfl⟩

/-- Witness for C2 at concrete configs (one acyclic pair). -/
theorem topo_sort_correct_witness :
    (∀ l, topo_sort [("A", ["B"]), ("B", [])] = .ok l →
        l.Perm (names [("A", ["B"]), ("B", [])])
        ∧ ∀ a b, DependsOn [("A", ["B"]), ("B", [])] a b →
            a ∈ l ∧ b ∈ l ∧ l.indexOf a < l.indexOf b)
    ∧ (¬ Cyclic [("A", ["B"]), ("B", [])] →
        ∃ l, topo_sort [("A", ["B"]), ("B", [])] = .ok l)
    ∧ (Cyclic [("A", ["B"]), ("B", [])] → ∃ c,
        topo_sort [("A", ["B"]), ("B", [])]
          = .error (TopoErr.cyclic c)) :=
  topo_sort_correct [("A", ["B"]), ("B", [])] (by decide)

end OnePromptAgents
